import Mathlib

set_option maxRecDepth 40000

/-!
Shallow embedding of `src/utils/imageAnalysis.ts` from the
image-tamper-detection repository, together with theorems settling the
claims about it.  JavaScript numbers are modelled as exact rationals
(`ℚ`), 8-bit samples as naturals, and the flat RGBA sample array of an
`ImageData` as a function from flat indices to sample values.  The
`Math.sqrt(d) > 2*blockSize` comparison is modelled by the equivalent
comparison of squares.
-/

namespace ImageTamper

/-- A decoded raster image: width, height and the flat RGBA sample
array (`data i` is the sample at flat index `i`), mirroring the
`ImageData` objects consumed by `imageAnalysis.ts`. -/
structure PixelBuffer where
  width : Nat
  height : Nat
  data : Nat → Nat

/-- The `Region` interface of `imageAnalysis.ts`. -/
structure Region where
  x : Nat
  y : Nat
  width : Nat
  height : Nat
  confidence : ℚ
deriving DecidableEq, Repr

/-- `Math.abs(a - b)` on two samples. -/
def natAbsDiff (a b : Nat) : Nat := ((a : Int) - (b : Int)).natAbs

/-- Per-pixel sum of absolute R, G, B channel differences between two
sample arrays at flat pixel base index `idx` (alpha at `idx+3` ignored),
as in the inner loop of `performErrorLevelAnalysis`. -/
def pixelDiff (origData compData : Nat → Nat) (idx : Nat) : Nat :=
  natAbsDiff (origData idx) (compData idx) +
  natAbsDiff (origData (idx + 1)) (compData (idx + 1)) +
  natAbsDiff (origData (idx + 2)) (compData (idx + 2))

/-- The ELA block size: the literal `blockSize = 16`. -/
def elaBlockSize : Nat := 16

/-- The pixel offsets `(by, bx)` visited by the clipped inner loops
`for (by = 0; by < blockSize && y + by < height; by++)` /
`for (bx = 0; bx < blockSize && x + bx < width; bx++)`. -/
def elaCellOffsets (w h x y : Nat) : List (Nat × Nat) :=
  ((List.range elaBlockSize).filter (fun dy => y + dy < h)).flatMap
    (fun dy =>
      ((List.range elaBlockSize).filter (fun dx => x + dx < w)).map
        (fun dx => (dy, dx)))

/-- The `normalizedDiff` computed for the ELA cell whose top-left corner
is `(x, y)`: mean per-pixel RGB difference over the clipped cell,
divided by 30 and saturated at 1. -/
def elaCellNormalizedDiff (img : PixelBuffer) (compData : Nat → Nat)
    (x y : Nat) : ℚ :=
  let offs := elaCellOffsets img.width img.height x y
  let diffSum : Nat :=
    (offs.map (fun p =>
      pixelDiff img.data compData (((y + p.1) * img.width + (x + p.2)) * 4))).sum
  let pixelCount : Nat := offs.length
  let avgDiff : ℚ := (diffSum : ℚ) / ((pixelCount : ℚ) * 3)
  min (avgDiff / 30) 1

/-- Number of heatmap rows: `Math.ceil(height / blockSize)`; the outer
loop `for (y = 0; y < height; y += blockSize)` visits exactly the grid
rows `gy < elaRows` with `y = blockSize * gy`. -/
def elaRows (img : PixelBuffer) : Nat :=
  (img.height + elaBlockSize - 1) / elaBlockSize

/-- Number of heatmap columns: `Math.ceil(width / blockSize)`. -/
def elaCols (img : PixelBuffer) : Nat :=
  (img.width + elaBlockSize - 1) / elaBlockSize

/-- The region contribution of the ELA loop body for the cell at grid
position `(gx, gy)`: `if (normalizedDiff > 0.3) regions.push({x, y,
width: blockSize, height: blockSize, confidence: normalizedDiff})`. -/
def elaCellRegionList (img : PixelBuffer) (compData : Nat → Nat)
    (gx gy : Nat) : List Region :=
  let x := gx * elaBlockSize
  let y := gy * elaBlockSize
  let nd := elaCellNormalizedDiff img compData x y
  if 3 / 10 < nd then
    [{ x := x, y := y, width := elaBlockSize, height := elaBlockSize,
       confidence := nd }]
  else []

/-- `performErrorLevelAnalysis`: the recompression oracle is external,
so the decoded recompressed sample array `compData` (same dimensions as
the original, as the two equal-sized canvases guarantee) is a parameter.
The heatmap starts as a `ceil(height/16) × ceil(width/16)` grid of
zeros; each cell of the row-major loop nest stores its `normalizedDiff`
into `heatmap[y / blockSize][x / blockSize]` and appends the cell's
region contribution. -/
def performErrorLevelAnalysis (img : PixelBuffer) (compData : Nat → Nat) :
    List Region × List (List ℚ) :=
  (List.range (elaRows img)).foldl (fun acc gy =>
    (List.range (elaCols img)).foldl (fun acc2 gx =>
      (acc2.1 ++ elaCellRegionList img compData gx gy,
       acc2.2.set gy ((acc2.2.getD gy []).set gx
         (elaCellNormalizedDiff img compData (gx * elaBlockSize)
           (gy * elaBlockSize))))) acc)
    ([], List.replicate (elaRows img) (List.replicate (elaCols img) (0 : ℚ)))

/-- A copy-move block: full RGBA sample copy (one `(r, g, b, a)` tuple
per pixel, row-major) plus the top-left corner, mirroring the
`{ data, x, y }` records of `detectCopyMove`. -/
structure Block where
  data : List (Nat × Nat × Nat × Nat)
  x : Nat
  y : Nat
deriving DecidableEq

/-- The copy-move block size: the literal `blockSize = 32`. -/
def cmBlockSize : Nat := 32

/-- The copy-move similarity threshold: the literal `threshold = 5`. -/
def cmThreshold : ℚ := 5

/-- One extracted block: the inner copy loops
`for (by = 0; by < blockSize; by++) for (bx = 0; bx < blockSize; bx++)`
copying the four samples at `((y+by)*width + (x+bx)) * 4`. -/
def extractBlock (img : PixelBuffer) (x y : Nat) : Block :=
  { data :=
      (List.range cmBlockSize).flatMap (fun dy =>
        (List.range cmBlockSize).map (fun dx =>
          let sourceIdx := ((y + dy) * img.width + (x + dx)) * 4
          (img.data sourceIdx, img.data (sourceIdx + 1),
           img.data (sourceIdx + 2), img.data (sourceIdx + 3)))),
    x := x, y := y }

/-- The block-extraction loops of `detectCopyMove`:
`for (y = 0; y < height - blockSize; y += blockSize)` /
`for (x = 0; x < width - blockSize; x += blockSize)` (strict `<`
against the truncated bound, so `y` ranges over the multiples of
`blockSize` below `height - blockSize`), iterated as grid coordinates
`gy < ceil((height - blockSize)/blockSize)` with `y = 32*gy`. -/
def extractBlocks (img : PixelBuffer) : List Block :=
  let bs := cmBlockSize
  (List.range ((img.height - bs + (bs - 1)) / bs)).flatMap (fun gy =>
    (List.range ((img.width - bs + (bs - 1)) / bs)).map (fun gx =>
      extractBlock img (gx * bs) (gy * bs)))

/-- The ordered index pairs `i < j` of the double comparison loop
`for (i ...) for (j = i + 1 ...)`, as pairs of elements. -/
def orderedPairs {α : Type} : List α → List (α × α)
  | [] => []
  | b :: rest => rest.map (fun c => (b, c)) ++ orderedPairs rest

/-- Sum of per-pixel RGB absolute differences between two block sample
arrays (`i += 4` stride skipping alpha), shared by `areBlocksSimilar`
and `calculateSimilarityConfidence`, divided by the pixel count
`block1.length / 4`. -/
def blockAvgDiff (b1 b2 : List (Nat × Nat × Nat × Nat)) : ℚ :=
  let diffSum : Nat :=
    ((b1.zip b2).map (fun pq =>
      natAbsDiff pq.1.1 pq.2.1 + natAbsDiff pq.1.2.1 pq.2.2.1 +
      natAbsDiff pq.1.2.2.1 pq.2.2.2.1)).sum
  (diffSum : ℚ) / (b1.length : ℚ)

/-- `areBlocksSimilar`: average per-pixel RGB difference strictly below
the threshold. -/
def areBlocksSimilar (b1 b2 : List (Nat × Nat × Nat × Nat))
    (threshold : ℚ) : Bool :=
  blockAvgDiff b1 b2 < threshold

/-- `calculateSimilarityConfidence`: `max(0, 1 - avgDiff / 255)`. -/
def calculateSimilarityConfidence (b1 b2 : List (Nat × Nat × Nat × Nat)) : ℚ :=
  max 0 (1 - blockAvgDiff b1 b2 / 255)

/-- Squared Euclidean distance between two block origins; the source's
`Math.sqrt(...) > blockSize * 2` is modelled as
`(blockSize * 2)^2 < squaredDist`. -/
def squaredDist (b1 b2 : Block) : Nat :=
  natAbsDiff b1.x b2.x ^ 2 + natAbsDiff b1.y b2.y ^ 2

/-- The region contribution of the copy-move comparison loop body for
one ordered block pair: two full-`blockSize` regions sharing the pair's
similarity confidence when the blocks are similar and their origins are
more than `2 * blockSize` apart (the source's `Math.sqrt(...) >
blockSize * 2` compared as squares), nothing otherwise. -/
def cmRegionPair (pr : Block × Block) : List Region :=
  if areBlocksSimilar pr.1.data pr.2.data cmThreshold then
    if (cmBlockSize * 2) ^ 2 < squaredDist pr.1 pr.2 then
      let conf := calculateSimilarityConfidence pr.1.data pr.2.data
      [{ x := pr.1.x, y := pr.1.y, width := cmBlockSize,
         height := cmBlockSize, confidence := conf },
       { x := pr.2.x, y := pr.2.y, width := cmBlockSize,
         height := cmBlockSize, confidence := conf }]
    else []
  else []

/-- `detectCopyMove`: extract blocks, compare every ordered pair
appending each pair's region contribution, and aggregate the overall
confidence as the mean of the emitted regions' confidences (0 when
none). -/
def detectCopyMove (img : PixelBuffer) : List Region × ℚ :=
  let regions : List Region :=
    (orderedPairs (extractBlocks img)).foldl
      (fun acc pr => acc ++ cmRegionPair pr) []
  let overallConfidence : ℚ :=
    if 0 < regions.length then
      (regions.map Region.confidence).sum / (regions.length : ℚ)
    else 0
  (regions, overallConfidence)

/-- The metadata record handed to `calculateOverallConfidence` by the
caller: `exifData` models the truthiness of the parsed EXIF object and
`warnings` models `warnings.length`. -/
structure Metadata where
  exifData : Bool
  warnings : Nat
deriving DecidableEq

/-- `calculateOverallConfidence`: running `(confidence, factors)` pair;
the ELA mean is added when there are ELA regions, the copy-move
confidence when it is positive, and the metadata factor
(`1`, times `0.7` without EXIF data, times `1 - warnings.length * 0.1`
with warnings) whenever `metadata` is truthy; the result is
`(confidence / factors) * 100`, or `0` when no factor was counted. -/
def calculateOverallConfidence (elaRegions : List Region)
    (copyMoveConfidence : ℚ) (metadata : Option Metadata) : ℚ :=
  let acc0 : ℚ × Nat := (0, 0)
  let acc1 :=
    if 0 < elaRegions.length then
      (acc0.1 + (elaRegions.map Region.confidence).sum / (elaRegions.length : ℚ),
       acc0.2 + 1)
    else acc0
  let acc2 :=
    if 0 < copyMoveConfidence then (acc1.1 + copyMoveConfidence, acc1.2 + 1)
    else acc1
  let acc3 :=
    match metadata with
    | some m =>
        let mc0 : ℚ := 1
        let mc1 := if m.exifData then mc0 else mc0 * (7 / 10)
        let mc2 :=
          if 0 < m.warnings then mc1 * (1 - (m.warnings : ℚ) * (1 / 10))
          else mc1
        (acc2.1 + mc2, acc2.2 + 1)
    | none => acc2
  if 0 < acc3.2 then (acc3.1 / (acc3.2 : ℚ)) * 100 else 0

/-- The spec-side metadata factor of the aggregator: `1`, times `0.7`
without EXIF data, times `1 - warnings.length * 0.1` when there are
warnings. -/
def metadataFactor (m : Metadata) : ℚ :=
  (if m.exifData then (1 : ℚ) else 1 * (7 / 10)) *
    (if 0 < m.warnings then 1 - (m.warnings : ℚ) * (1 / 10) else 1)

/-- The number of factors counted by `calculateOverallConfidence`. -/
def confidenceFactors (elaRegions : List Region) (copyMoveConfidence : ℚ)
    (metadata : Option Metadata) : Nat :=
  (if 0 < elaRegions.length then 1 else 0) +
  (if 0 < copyMoveConfidence then 1 else 0) +
  (match metadata with | some _ => 1 | none => 0)

/-- The running confidence sum accumulated by
`calculateOverallConfidence`. -/
def confidenceSum (elaRegions : List Region) (copyMoveConfidence : ℚ)
    (metadata : Option Metadata) : ℚ :=
  (if 0 < elaRegions.length then
    (elaRegions.map Region.confidence).sum / (elaRegions.length : ℚ)
  else 0) +
  (if 0 < copyMoveConfidence then copyMoveConfidence else 0) +
  (match metadata with | some m => metadataFactor m | none => 0)

/-! Derived forms of the two detectors' outputs, proved equal to the
embedded functions below and used to reason about membership. -/

/-- The ELA region list in row-major flatMap form. -/
def elaRegionsOf (img : PixelBuffer) (compData : Nat → Nat) : List Region :=
  (List.range (elaRows img)).flatMap fun gy =>
    (List.range (elaCols img)).flatMap fun gx =>
      elaCellRegionList img compData gx gy

/-- The ELA heatmap as the fold of per-cell updates over the initial
all-zero grid. -/
def elaHeatmapOf (img : PixelBuffer) (compData : Nat → Nat) :
    List (List ℚ) :=
  (List.range (elaRows img)).foldl (fun hm gy =>
    (List.range (elaCols img)).foldl (fun hm2 gx =>
      hm2.set gy ((hm2.getD gy []).set gx
        (elaCellNormalizedDiff img compData (gx * elaBlockSize)
          (gy * elaBlockSize)))) hm)
    (List.replicate (elaRows img) (List.replicate (elaCols img) (0 : ℚ)))

/-- The copy-move region list in flatMap form. -/
def cmRegionsOf (img : PixelBuffer) : List Region :=
  (orderedPairs (extractBlocks img)).flatMap cmRegionPair

/-! Concrete fixture buffers used by counterexamples and witnesses. -/

/-- A 17 × 16 all-zero image: one full ELA cell plus a clipped edge
cell one pixel wide. -/
def zeroBuf17x16 : PixelBuffer := ⟨17, 16, fun _ => 0⟩

/-- A recompressed sample array that maximally disagrees with
`zeroBuf17x16`. -/
def maxCompData : Nat → Nat := fun _ => 255

/-- A 64 × 64 uniform single-color image (all four channels equal to
`c`). -/
def uniformBuf64 (c : Nat) : PixelBuffer := ⟨64, 64, fun _ => c⟩

/-- A 160 × 33 all-zero image: copy-move extracts four blocks at
`x ∈ {0, 32, 64, 96}`, `y = 0`, and the pair `(0, 96)` is similar and
more than `2 * blockSize` apart. -/
def zeroBuf160x33 : PixelBuffer := ⟨160, 33, fun _ => 0⟩

/-- A 0 × 0 buffer. -/
def emptyBuf : PixelBuffer := ⟨0, 0, fun _ => 0⟩

/-- A zero-width, positive-height buffer. -/
def zeroWidthBuf : PixelBuffer := ⟨0, 5, fun _ => 0⟩

/-- A 17 × 20 constant buffer, used to witness heatmap dimensions. -/
def constBuf17x20 : PixelBuffer := ⟨17, 20, fun _ => 7⟩

/-! ## General helper lemmas -/

/-- A fold that only appends is a flatMap. -/
theorem foldl_append_eq_flatMap {α β : Type} (f : β → List α) (l : List β)
    (init : List α) :
    l.foldl (fun acc b => acc ++ f b) init = init ++ l.flatMap f := by
  induction l generalizing init with
  | nil => simp
  | cons b t ih => simp [ih, List.append_assoc]

/-- Invariant preservation along a left fold. -/
theorem foldl_preserve {α β : Type} (P : α → Prop) (f : α → β → α) :
    ∀ (l : List β) (init : α), P init →
      (∀ a b, b ∈ l → P a → P (f a b)) → P (l.foldl f init) := by
  intro l
  induction l with
  | nil => intro init h0 _; exact h0
  | cons b t ih =>
      intro init h0 hstep
      exact ih (f init b) (hstep init b (by simp) h0)
        (fun a c hc ha => hstep a c (by simp [hc]) ha)

/-- Folding a step that ignores its second argument is the identity. -/
theorem foldl_id {α β : Type} (l : List β) (init : α) :
    l.foldl (fun a _ => a) init = init := by
  induction l generalizing init with
  | nil => rfl
  | cons b t ih => exact ih init

/-- Membership in a conditional list. -/
theorem mem_ite_nil {α : Type} {c : Prop} [Decidable c] {l : List α}
    {a : α} : a ∈ (if c then l else []) ↔ c ∧ a ∈ l := by
  split_ifs with h <;> simp [h]

/-- `a < ⌈m / b⌉` (written `(m + b - 1) / b`) iff `a * b < m`. -/
theorem lt_ceilDiv_iff {b : Nat} (hb : 0 < b) {a m : Nat} :
    a < (m + b - 1) / b ↔ a * b < m := by
  rw [Nat.lt_iff_add_one_le, Nat.le_div_iff_mul_le hb, Nat.succ_mul]
  omega

/-- `a < ⌈m / b⌉` (written `(m + (b - 1)) / b`) iff `a * b < m`. -/
theorem lt_ceilDiv_iff2 {b : Nat} (hb : 0 < b) {a m : Nat} :
    a < (m + (b - 1)) / b ↔ a * b < m := by
  rw [Nat.lt_iff_add_one_le, Nat.le_div_iff_mul_le hb, Nat.succ_mul]
  omega

/-- The mean of a list of rationals in `[0, 1]` is in `[0, 1]` (the
empty list gives `0 / 0 = 0`). -/
theorem list_mean_nonneg_le_one (l : List ℚ) (h : ∀ x ∈ l, 0 ≤ x ∧ x ≤ 1) :
    0 ≤ l.sum / (l.length : ℚ) ∧ l.sum / (l.length : ℚ) ≤ 1 := by
  rcases eq_or_ne l [] with rfl | hne
  · simp
  · have hlen : 0 < (l.length : ℚ) := by
      exact_mod_cast List.length_pos.mpr hne
    constructor
    · exact div_nonneg (List.sum_nonneg fun x hx => (h x hx).1) (le_of_lt hlen)
    · rw [div_le_one hlen]
      have := List.sum_le_card_nsmul l 1 fun x hx => (h x hx).2
      simpa using this

/-- The mean of a nonempty list whose elements all exceed `c` exceeds
`c`. -/
theorem lt_list_mean {l : List ℚ} {c : ℚ} (hne : l ≠ [])
    (h : ∀ x ∈ l, c < x) : c < l.sum / (l.length : ℚ) := by
  have hlen : 0 < (l.length : ℚ) := by
    exact_mod_cast List.length_pos.mpr hne
  rw [lt_div_iff hlen]
  rcases l with _ | ⟨a, t⟩
  · exact absurd rfl hne
  · have ht := List.card_nsmul_le_sum t c fun x hx => le_of_lt (h x (by simp [hx]))
    have ha : c < a := h a (by simp)
    rw [nsmul_eq_mul] at ht
    simp only [List.sum_cons, List.length_cons]
    push_cast
    have hexp : c * ((t.length : ℚ) + 1) = (t.length : ℚ) * c + c := by ring
    linarith

/-- `(s / n) * 100` lies in `[0, 100]` when `0 ≤ s ≤ n` and `0 < n`. -/
theorem div_mul_100_bounds {s : ℚ} {n : Nat} (h0 : 0 ≤ s) (hn : 0 < n)
    (hsn : s ≤ (n : ℚ)) :
    0 ≤ s / (n : ℚ) * 100 ∧ s / (n : ℚ) * 100 ≤ 100 := by
  have hnq : 0 < (n : ℚ) := by exact_mod_cast hn
  constructor
  · exact mul_nonneg (div_nonneg h0 (le_of_lt hnq)) (by norm_num)
  · have h1 : s / (n : ℚ) ≤ 1 := (div_le_one hnq).mpr hsn
    nlinarith

/-! ## Lemmas about the embedded functions -/

/-- One row of the ELA loop nest splits into a region flatMap and a
heatmap fold. -/
theorem ela_inner_fold (img : PixelBuffer) (compData : Nat → Nat) (gy : Nat) :
    ∀ (gxs : List Nat) (acc : List Region × List (List ℚ)),
      gxs.foldl (fun acc2 gx =>
        (acc2.1 ++ elaCellRegionList img compData gx gy,
         acc2.2.set gy ((acc2.2.getD gy []).set gx
           (elaCellNormalizedDiff img compData (gx * elaBlockSize)
             (gy * elaBlockSize))))) acc =
      (acc.1 ++ gxs.flatMap (fun gx => elaCellRegionList img compData gx gy),
       gxs.foldl (fun hm2 gx => hm2.set gy ((hm2.getD gy []).set gx
         (elaCellNormalizedDiff img compData (gx * elaBlockSize)
           (gy * elaBlockSize)))) acc.2) := by
  intro gxs
  induction gxs with
  | nil => intro acc; simp
  | cons gx t ih =>
      intro acc
      rw [List.foldl_cons, ih, List.foldl_cons]
      simp [List.append_assoc]

/-- The full ELA loop nest splits into a region flatMap and a heatmap
fold. -/
theorem ela_outer_fold (img : PixelBuffer) (compData : Nat → Nat) :
    ∀ (gys : List Nat) (init : List Region × List (List ℚ)),
      gys.foldl (fun acc gy =>
        (List.range (elaCols img)).foldl (fun acc2 gx =>
          (acc2.1 ++ elaCellRegionList img compData gx gy,
           acc2.2.set gy ((acc2.2.getD gy []).set gx
             (elaCellNormalizedDiff img compData (gx * elaBlockSize)
               (gy * elaBlockSize))))) acc) init =
      (init.1 ++ gys.flatMap (fun gy =>
        (List.range (elaCols img)).flatMap fun gx =>
          elaCellRegionList img compData gx gy),
       gys.foldl (fun hm gy =>
        (List.range (elaCols img)).foldl (fun hm2 gx =>
          hm2.set gy ((hm2.getD gy []).set gx
            (elaCellNormalizedDiff img compData (gx * elaBlockSize)
              (gy * elaBlockSize)))) hm) init.2) := by
  intro gys
  induction gys with
  | nil => intro init; simp
  | cons gy t ih =>
      intro init
      rw [List.foldl_cons, ela_inner_fold, ih, List.foldl_cons]
      simp [List.append_assoc]

/-- `performErrorLevelAnalysis` splits into its region list and
heatmap. -/
theorem performErrorLevelAnalysis_eq (img : PixelBuffer)
    (compData : Nat → Nat) :
    performErrorLevelAnalysis img compData =
      (elaRegionsOf img compData, elaHeatmapOf img compData) := by
  unfold performErrorLevelAnalysis elaRegionsOf elaHeatmapOf
  rw [ela_outer_fold]
  simp

/-- `detectCopyMove` splits into its region list and the mean
confidence. -/
theorem detectCopyMove_eq (img : PixelBuffer) :
    detectCopyMove img =
      (cmRegionsOf img,
       if 0 < (cmRegionsOf img).length then
         ((cmRegionsOf img).map Region.confidence).sum /
           ((cmRegionsOf img).length : ℚ)
       else 0) := by
  simp only [detectCopyMove, cmRegionsOf]
  rw [foldl_append_eq_flatMap]
  simp

/-- Unfolding equation for `elaCellNormalizedDiff`. -/
theorem elaCellNormalizedDiff_def (img : PixelBuffer) (compData : Nat → Nat)
    (x y : Nat) :
    elaCellNormalizedDiff img compData x y =
      min (((((elaCellOffsets img.width img.height x y).map fun p =>
          pixelDiff img.data compData
            (((y + p.1) * img.width + (x + p.2)) * 4)).sum : ℚ) /
        (((elaCellOffsets img.width img.height x y).length : ℚ) * 3)) / 30) 1 :=
  rfl

/-- Unfolding equation for `blockAvgDiff`. -/
theorem blockAvgDiff_def (b1 b2 : List (Nat × Nat × Nat × Nat)) :
    blockAvgDiff b1 b2 =
      ((((b1.zip b2).map fun pq =>
          natAbsDiff pq.1.1 pq.2.1 + natAbsDiff pq.1.2.1 pq.2.2.1 +
          natAbsDiff pq.1.2.2.1 pq.2.2.2.1).sum : ℚ) / (b1.length : ℚ)) :=
  rfl

/-- Membership in the ELA region list. -/
theorem mem_elaRegionsOf {img : PixelBuffer} {compData : Nat → Nat}
    {r : Region} :
    r ∈ elaRegionsOf img compData ↔
      ∃ gy, gy < elaRows img ∧ ∃ gx, gx < elaCols img ∧
        3 / 10 < elaCellNormalizedDiff img compData (gx * elaBlockSize)
          (gy * elaBlockSize) ∧
        r = { x := gx * elaBlockSize, y := gy * elaBlockSize,
              width := elaBlockSize, height := elaBlockSize,
              confidence := elaCellNormalizedDiff img compData
                (gx * elaBlockSize) (gy * elaBlockSize) } := by
  simp [elaRegionsOf, elaCellRegionList, List.mem_flatMap, List.mem_range,
    mem_ite_nil]

/-- Membership in the extracted copy-move block list. -/
theorem mem_extractBlocks {img : PixelBuffer} {b : Block} :
    b ∈ extractBlocks img ↔
      ∃ gy, gy * cmBlockSize < img.height - cmBlockSize ∧
        ∃ gx, gx * cmBlockSize < img.width - cmBlockSize ∧
          b = extractBlock img (gx * cmBlockSize) (gy * cmBlockSize) := by
  unfold extractBlocks
  simp only [List.mem_flatMap, List.mem_map, List.mem_range,
    lt_ceilDiv_iff2 (show 0 < cmBlockSize by decide)]
  constructor
  · rintro ⟨gy, hgy, gx, hgx, rfl⟩
    exact ⟨gy, hgy, gx, hgx, rfl⟩
  · rintro ⟨gy, hgy, gx, hgx, rfl⟩
    exact ⟨gy, hgy, gx, hgx, rfl⟩

/-- Both components of an ordered pair come from the underlying list. -/
theorem mem_of_orderedPairs {α : Type} :
    ∀ {l : List α} {p : α × α}, p ∈ orderedPairs l → p.1 ∈ l ∧ p.2 ∈ l := by
  intro l
  induction l with
  | nil => intro p hp; simp [orderedPairs] at hp
  | cons b t ih =>
      intro p hp
      simp only [orderedPairs, List.mem_append, List.mem_map] at hp
      rcases hp with ⟨c, hc, rfl⟩ | hp
      · exact ⟨by simp, by simp [hc]⟩
      · rcases ih hp with ⟨h1, h2⟩
        exact ⟨by simp [h1], by simp [h2]⟩

/-- The average block difference is non-negative. -/
theorem blockAvgDiff_nonneg (b1 b2 : List (Nat × Nat × Nat × Nat)) :
    0 ≤ blockAvgDiff b1 b2 := by
  rw [blockAvgDiff_def]
  exact div_nonneg (by positivity) (by positivity)

/-- The pair-similarity confidence always lies in `[0, 1]`. -/
theorem calculateSimilarityConfidence_bounds
    (b1 b2 : List (Nat × Nat × Nat × Nat)) :
    0 ≤ calculateSimilarityConfidence b1 b2 ∧
    calculateSimilarityConfidence b1 b2 ≤ 1 := by
  unfold calculateSimilarityConfidence
  have h := blockAvgDiff_nonneg b1 b2
  have h255 : 0 ≤ blockAvgDiff b1 b2 / 255 := div_nonneg h (by norm_num)
  constructor
  · exact le_max_left 0 _
  · rw [max_le_iff]
    constructor <;> linarith

/-- For a similar pair, the confidence exceeds `1 - 5/255 = 250/255`. -/
theorem similar_confidence_gt (b1 b2 : List (Nat × Nat × Nat × Nat))
    (h : areBlocksSimilar b1 b2 cmThreshold = true) :
    250 / 255 < calculateSimilarityConfidence b1 b2 := by
  unfold areBlocksSimilar at h
  rw [decide_eq_true_eq] at h
  unfold cmThreshold at h
  unfold calculateSimilarityConfidence
  have h0 := blockAvgDiff_nonneg b1 b2
  have hdiv : blockAvgDiff b1 b2 / 255 < 5 / 255 := by
    apply div_lt_div_of_pos_right h (by norm_num)
  rw [max_eq_right (by linarith)]
  linarith

/-- The aggregator equals the sum-over-factors formula. -/
theorem calcOverall_eq (ela : List Region) (cm : ℚ) (meta : Option Metadata) :
    calculateOverallConfidence ela cm meta =
      if 0 < confidenceFactors ela cm meta then
        confidenceSum ela cm meta / (confidenceFactors ela cm meta : ℚ) * 100
      else 0 := by
  cases meta with
  | none =>
      simp only [calculateOverallConfidence, confidenceSum, confidenceFactors]
      split_ifs <;> push_cast <;> first | ring | norm_num | omega
  | some m =>
      simp only [calculateOverallConfidence, confidenceSum, confidenceFactors,
        metadataFactor]
      split_ifs <;> push_cast <;> first | ring | norm_num | omega

/-- The metadata factor lies in `[0, 1]` when there are at most 10
warnings. -/
theorem metadataFactor_bounds (m : Metadata) (hw : m.warnings ≤ 10) :
    0 ≤ metadataFactor m ∧ metadataFactor m ≤ 1 := by
  unfold metadataFactor
  have hwq : (m.warnings : ℚ) ≤ 10 := by exact_mod_cast hw
  have hwq0 : (0 : ℚ) ≤ (m.warnings : ℚ) := Nat.cast_nonneg _
  split_ifs <;> constructor <;> nlinarith

/-- Every copy-move region comes from a similar extracted block pair
and carries that pair's similarity confidence. -/
theorem mem_cmRegionsOf {img : PixelBuffer} {r : Region}
    (hr : r ∈ cmRegionsOf img) :
    ∃ pr : Block × Block, pr.1 ∈ extractBlocks img ∧
      pr.2 ∈ extractBlocks img ∧
      areBlocksSimilar pr.1.data pr.2.data cmThreshold = true ∧
      (r = { x := pr.1.x, y := pr.1.y, width := cmBlockSize,
             height := cmBlockSize,
             confidence := calculateSimilarityConfidence pr.1.data pr.2.data } ∨
       r = { x := pr.2.x, y := pr.2.y, width := cmBlockSize,
             height := cmBlockSize,
             confidence := calculateSimilarityConfidence pr.1.data pr.2.data }) := by
  unfold cmRegionsOf at hr
  rcases List.mem_flatMap.mp hr with ⟨pr, hpr, hrp⟩
  have hb := mem_of_orderedPairs hpr
  unfold cmRegionPair at hrp
  split_ifs at hrp with hsim hdist
  · simp only [List.mem_cons, List.not_mem_nil, or_false] at hrp
    exact ⟨pr, hb.1, hb.2, hsim, hrp⟩
  · simp at hrp
  · simp at hrp

/-- Helper arithmetic: an origin below `m - blockSize` stays in bounds
after adding a block. -/
theorem cm_origin_bound {m k : Nat} (h : k < m - cmBlockSize) :
    k + cmBlockSize ≤ m := by
  simp only [cmBlockSize] at *
  omega

/-! ## Claim theorems -/

/-- C6: with no ELA regions and zero copy-move confidence, the
aggregator returns exactly 100 for `hasMetadata = true, warningCount =
0` and exactly 49 for `hasMetadata = false, warningCount = 3`
(metadata factor `0.7 * (1 - 0.3) = 0.49`). -/
theorem C6_aggregate_fixed_values :
    calculateOverallConfidence [] 0 (some ⟨true, 0⟩) = 100 ∧
    calculateOverallConfidence [] 0 (some ⟨false, 3⟩) = 49 := by
  constructor <;>
    · rw [calcOverall_eq]
      norm_num [confidenceSum, confidenceFactors, metadataFactor]

/-- C3 counterexample: the aggregate is not always in `[0, 100]` — with
no ELA regions, zero copy-move confidence, metadata present and 20
warnings, the metadata factor is `1 - 20 * 0.1 = -1` and the aggregate
is `-100`. -/
theorem C3_counterexample :
    calculateOverallConfidence [] 0 (some ⟨true, 20⟩) = -100 ∧
    calculateOverallConfidence [] 0 (some ⟨true, 20⟩) < 0 := by
  have h : calculateOverallConfidence [] 0 (some ⟨true, 20⟩) = -100 := by
    rw [calcOverall_eq]
    norm_num [confidenceSum, confidenceFactors, metadataFactor]
  exact ⟨h, by rw [h]; norm_num⟩

/-- C5 counterexample: on a zero-dimension buffer neither analysis
fails with an EmptyImage error — both return ordinary results (empty
regions, empty heatmap, zero confidence); the code contains no
empty-image check at all. -/
theorem C5_counterexample :
    performErrorLevelAnalysis emptyBuf (fun _ => 0) = ([], []) ∧
    detectCopyMove emptyBuf = ([], 0) := by
  constructor <;> rfl

/-- C4 counterexample: on a 64 × 64 uniform image the copy-move block
loops (`y < height - blockSize`, strict) extract a single block at
`(0, 0)` and perform zero pair comparisons — not the 2 blocks and one
comparison the claim states. -/
theorem C4_counterexample :
    (extractBlocks (uniformBuf64 0)).length = 1 ∧
    (orderedPairs (extractBlocks (uniformBuf64 0))).length = 0 ∧
    ¬ (extractBlocks (uniformBuf64 0)).length = 2 := by
  refine ⟨rfl, rfl, by decide⟩

/-- C2 counterexample: on a 64 × 64 image the origin `(32, 0)` satisfies
`x + blockSize ≤ width` and `y + blockSize ≤ height`, yet
`detectCopyMove` extracts no block there: the loops stop strictly below
`width - blockSize`, dropping blocks that exactly touch the boundary. -/
theorem C2_counterexample :
    32 + cmBlockSize ≤ (uniformBuf64 0).width ∧
    0 + cmBlockSize ≤ (uniformBuf64 0).height ∧
    ¬ ∃ b ∈ extractBlocks (uniformBuf64 0), b.x = 32 ∧ b.y = 0 := by
  refine ⟨by decide, by decide, by decide⟩

/-- C1 counterexample: ELA regions for clipped edge cells keep the full
`blockSize` extent — on a 17-pixel-wide image the edge cell at `x = 16`
emits a region with `x + width = 32 > 17`. -/
theorem C1_counterexample :
    ∃ r ∈ (performErrorLevelAnalysis zeroBuf17x16 maxCompData).1,
      zeroBuf17x16.width < r.x + r.width := by
  have hsum : ((elaCellOffsets zeroBuf17x16.width zeroBuf17x16.height 16 0).map
      fun p => pixelDiff zeroBuf17x16.data maxCompData
        (((0 + p.1) * zeroBuf17x16.width + (16 + p.2)) * 4)).sum = 12240 := by
    decide
  have hlen : (elaCellOffsets zeroBuf17x16.width zeroBuf17x16.height 16 0).length
      = 16 := by decide
  have hnd : elaCellNormalizedDiff zeroBuf17x16 maxCompData 16 0 = 1 := by
    rw [elaCellNormalizedDiff_def, hsum, hlen]
    norm_num [min_def]
  refine ⟨{ x := 16, y := 0, width := 16, height := 16, confidence := 1 },
    ?_, by decide⟩
  rw [performErrorLevelAnalysis_eq]
  rw [show ((elaRegionsOf zeroBuf17x16 maxCompData, elaHeatmapOf zeroBuf17x16
    maxCompData) : List Region × List (List ℚ)).1 = elaRegionsOf zeroBuf17x16
    maxCompData from rfl]
  rw [mem_elaRegionsOf]
  refine ⟨0, by decide, 1, by decide, ?_, ?_⟩
  · rw [show (1 : Nat) * elaBlockSize = 16 from rfl,
      show (0 : Nat) * elaBlockSize = 0 from rfl, hnd]
    norm_num
  · rw [show (1 : Nat) * elaBlockSize = 16 from rfl,
      show (0 : Nat) * elaBlockSize = 0 from rfl, hnd]
    rfl

/-- C1 (amended): coordinates are non-negative and confidences lie in
`[0, 1]` for both detectors; copy-move regions satisfy
`x + width ≤ imageWidth` and `y + height ≤ imageHeight`, but ELA
regions are always `blockSize × blockSize` with `x < imageWidth` and
`y < imageHeight`, so regions emitted for clipped edge cells can extend
past the buffer bounds. -/
theorem C1_region_bounds (img : PixelBuffer) (compData : Nat → Nat) :
    (∀ r ∈ (performErrorLevelAnalysis img compData).1,
        r.x < img.width ∧ r.y < img.height ∧ r.width = elaBlockSize ∧
        r.height = elaBlockSize ∧ 0 ≤ r.confidence ∧ r.confidence ≤ 1) ∧
    (∀ r ∈ (detectCopyMove img).1,
        r.x + r.width ≤ img.width ∧ r.y + r.height ≤ img.height ∧
        0 ≤ r.confidence ∧ r.confidence ≤ 1) := by
  constructor
  · intro r hr
    simp only [performErrorLevelAnalysis_eq] at hr
    rcases mem_elaRegionsOf.mp hr with ⟨gy, hgy, gx, hgx, hnd, rfl⟩
    refine ⟨?_, ?_, rfl, rfl, ?_, ?_⟩
    · unfold elaCols at hgx
      exact (lt_ceilDiv_iff (show 0 < elaBlockSize by decide)).mp hgx
    · unfold elaRows at hgy
      exact (lt_ceilDiv_iff (show 0 < elaBlockSize by decide)).mp hgy
    · exact le_of_lt (lt_trans (show (0 : ℚ) < 3 / 10 by norm_num) hnd)
    · show elaCellNormalizedDiff img compData (gx * elaBlockSize)
        (gy * elaBlockSize) ≤ 1
      rw [elaCellNormalizedDiff_def]
      exact min_le_right _ _
  · intro r hr
    simp only [detectCopyMove_eq] at hr
    rcases mem_cmRegionsOf hr with ⟨pr, h1, h2, hsim, hr12⟩
    rcases mem_extractBlocks.mp h1 with ⟨gy1, hgy1, gx1, hgx1, hb1⟩
    rcases mem_extractBlocks.mp h2 with ⟨gy2, hgy2, gx2, hgx2, hb2⟩
    have hcb := calculateSimilarityConfidence_bounds pr.1.data pr.2.data
    have hx1 : pr.1.x = gx1 * cmBlockSize := by rw [hb1]; rfl
    have hy1 : pr.1.y = gy1 * cmBlockSize := by rw [hb1]; rfl
    have hx2 : pr.2.x = gx2 * cmBlockSize := by rw [hb2]; rfl
    have hy2 : pr.2.y = gy2 * cmBlockSize := by rw [hb2]; rfl
    rcases hr12 with rfl | rfl
    · exact ⟨by rw [hx1] at *; exact cm_origin_bound hgx1,
        by rw [hy1] at *; exact cm_origin_bound hgy1, hcb.1, hcb.2⟩
    · exact ⟨by rw [hx2] at *; exact cm_origin_bound hgx2,
        by rw [hy2] at *; exact cm_origin_bound hgy2, hcb.1, hcb.2⟩

/-- Membership fixture: the full top-left ELA cell of the 17 × 16
buffer against the all-255 recompression emits its region. -/
theorem zeroBuf17x16_region_mem :
    ({ x := 0, y := 0, width := 16, height := 16, confidence := 1 } : Region)
      ∈ elaRegionsOf zeroBuf17x16 maxCompData := by
  have hsum : ((elaCellOffsets zeroBuf17x16.width zeroBuf17x16.height 0 0).map
      fun p => pixelDiff zeroBuf17x16.data maxCompData
        (((0 + p.1) * zeroBuf17x16.width + (0 + p.2)) * 4)).sum = 195840 := by
    decide
  have hlen : (elaCellOffsets zeroBuf17x16.width zeroBuf17x16.height 0 0).length
      = 256 := by decide
  have hnd : elaCellNormalizedDiff zeroBuf17x16 maxCompData 0 0 = 1 := by
    rw [elaCellNormalizedDiff_def, hsum, hlen]
    norm_num [min_def]
  apply mem_elaRegionsOf.mpr
  refine ⟨0, by decide, 0, by decide, ?_, ?_⟩
  · rw [show (0 : Nat) * elaBlockSize = 0 from rfl, hnd]
    norm_num
  · rw [show (0 : Nat) * elaBlockSize = 0 from rfl, hnd]
    rfl

/-- Membership fixture: on the 160 × 33 all-zero buffer the pair of
blocks at `x = 0` and `x = 96` emits the region at `(0, 0)` with
confidence 1. -/
theorem zeroBuf160x33_region_mem :
    ({ x := 0, y := 0, width := 32, height := 32, confidence := 1 } : Region)
      ∈ cmRegionsOf zeroBuf160x33 := by
  have hsum : (((extractBlock zeroBuf160x33 0 0).data.zip
      (extractBlock zeroBuf160x33 96 0).data).map fun pq =>
      natAbsDiff pq.1.1 pq.2.1 + natAbsDiff pq.1.2.1 pq.2.2.1 +
      natAbsDiff pq.1.2.2.1 pq.2.2.2.1).sum = 0 := by decide
  have havg : blockAvgDiff (extractBlock zeroBuf160x33 0 0).data
      (extractBlock zeroBuf160x33 96 0).data = 0 := by
    rw [blockAvgDiff_def, hsum]
    simp
  have hsim : areBlocksSimilar (extractBlock zeroBuf160x33 0 0).data
      (extractBlock zeroBuf160x33 96 0).data cmThreshold = true := by
    unfold areBlocksSimilar
    rw [decide_eq_true_eq, havg]
    unfold cmThreshold
    norm_num
  have hconf : calculateSimilarityConfidence
      (extractBlock zeroBuf160x33 0 0).data
      (extractBlock zeroBuf160x33 96 0).data = 1 := by
    unfold calculateSimilarityConfidence
    rw [havg]
    norm_num
  unfold cmRegionsOf
  apply List.mem_flatMap.mpr
  refine ⟨(extractBlock zeroBuf160x33 0 0, extractBlock zeroBuf160x33 96 0),
    by decide, ?_⟩
  unfold cmRegionPair
  rw [if_pos hsim, if_pos (by decide)]
  rw [hconf]
  simp only [List.mem_cons]
  exact Or.inl (by rfl)

/-- C1 witness: the theorem applied to the concrete fixtures. -/
theorem C1_witness :
    (({ x := 0, y := 0, width := 16, height := 16, confidence := 1 } : Region)
        ∈ (performErrorLevelAnalysis zeroBuf17x16 maxCompData).1 ∧
      ((0 : Nat) < zeroBuf17x16.width ∧ (0 : Nat) < zeroBuf17x16.height ∧
       (16 : Nat) = elaBlockSize ∧ (16 : Nat) = elaBlockSize ∧
       (0 : ℚ) ≤ 1 ∧ (1 : ℚ) ≤ 1)) ∧
    (({ x := 0, y := 0, width := 32, height := 32, confidence := 1 } : Region)
        ∈ (detectCopyMove zeroBuf160x33).1 ∧
      (0 + 32 ≤ zeroBuf160x33.width ∧ 0 + 32 ≤ zeroBuf160x33.height ∧
       (0 : ℚ) ≤ 1 ∧ (1 : ℚ) ≤ 1)) := by
  have h1 : ({ x := 0, y := 0, width := 16, height := 16, confidence := 1 } :
      Region) ∈ (performErrorLevelAnalysis zeroBuf17x16 maxCompData).1 := by
    rw [performErrorLevelAnalysis_eq]
    exact zeroBuf17x16_region_mem
  have h2 : ({ x := 0, y := 0, width := 32, height := 32, confidence := 1 } :
      Region) ∈ (detectCopyMove zeroBuf160x33).1 := by
    rw [detectCopyMove_eq]
    exact zeroBuf160x33_region_mem
  exact ⟨⟨h1, (C1_region_bounds zeroBuf17x16 maxCompData).1 _ h1⟩,
    ⟨h2, (C1_region_bounds zeroBuf160x33 (fun _ => 0)).2 _ h2⟩⟩

/-- C2 (amended): `detectCopyMove` extracts exactly the grid blocks
whose origin satisfies the strict bounds `x + blockSize < width` and
`y + blockSize < height`; grid blocks whose extent exactly reaches the
boundary are dropped along with all other partial edge blocks. -/
theorem C2_block_grid (img : PixelBuffer) :
    (∀ b ∈ extractBlocks img, ∃ gx gy,
        b = extractBlock img (gx * cmBlockSize) (gy * cmBlockSize) ∧
        b.x = gx * cmBlockSize ∧ b.y = gy * cmBlockSize ∧
        b.x + cmBlockSize < img.width ∧ b.y + cmBlockSize < img.height) ∧
    (∀ gx gy, gx * cmBlockSize + cmBlockSize < img.width →
        gy * cmBlockSize + cmBlockSize < img.height →
        extractBlock img (gx * cmBlockSize) (gy * cmBlockSize) ∈
          extractBlocks img) := by
  constructor
  · intro b hb
    rcases mem_extractBlocks.mp hb with ⟨gy, hgy, gx, hgx, rfl⟩
    refine ⟨gx, gy, rfl, rfl, rfl, ?_, ?_⟩
    · show gx * cmBlockSize + cmBlockSize < img.width
      simp only [cmBlockSize] at hgx ⊢
      omega
    · show gy * cmBlockSize + cmBlockSize < img.height
      simp only [cmBlockSize] at hgy ⊢
      omega
  · intro gx gy hx hy
    apply mem_extractBlocks.mpr
    refine ⟨gy, ?_, gx, ?_, rfl⟩
    · simp only [cmBlockSize] at hy ⊢
      omega
    · simp only [cmBlockSize] at hx ⊢
      omega

/-- C2 witness: the theorem applied to the 160 × 33 fixture at grid
origin `(0, 0)`. -/
theorem C2_witness :
    extractBlock zeroBuf160x33 (0 * cmBlockSize) (0 * cmBlockSize) ∈
      extractBlocks zeroBuf160x33 ∧
    ∃ gx gy,
      extractBlock zeroBuf160x33 (0 * cmBlockSize) (0 * cmBlockSize) =
        extractBlock zeroBuf160x33 (gx * cmBlockSize) (gy * cmBlockSize) ∧
      (extractBlock zeroBuf160x33 (0 * cmBlockSize) (0 * cmBlockSize)).x =
        gx * cmBlockSize ∧
      (extractBlock zeroBuf160x33 (0 * cmBlockSize) (0 * cmBlockSize)).y =
        gy * cmBlockSize ∧
      (extractBlock zeroBuf160x33 (0 * cmBlockSize) (0 * cmBlockSize)).x +
        cmBlockSize < zeroBuf160x33.width ∧
      (extractBlock zeroBuf160x33 (0 * cmBlockSize) (0 * cmBlockSize)).y +
        cmBlockSize < zeroBuf160x33.height := by
  have hmem := (C2_block_grid zeroBuf160x33).2 0 0 (by decide) (by decide)
  exact ⟨hmem, (C2_block_grid zeroBuf160x33).1 _ hmem⟩

/-- C9: every copy-move region's confidence exceeds `1 - 5/255 =
250/255`, because a pair qualifies only when its average per-pixel RGB
difference is below the similarity threshold 5 and the confidence is
`max(0, 1 - avgDiff/255)` of that same difference; hence the overall
copy-move confidence is 0 or exceeds `250/255`. -/
theorem C9_copy_move_confidence_floor (img : PixelBuffer) :
    (∀ r ∈ (detectCopyMove img).1, 250 / 255 < r.confidence) ∧
    ((detectCopyMove img).2 = 0 ∨ 250 / 255 < (detectCopyMove img).2) := by
  have hreg : ∀ r ∈ cmRegionsOf img, 250 / 255 < r.confidence := by
    intro r hr
    rcases mem_cmRegionsOf hr with ⟨pr, _, _, hsim, hr12⟩
    have hgt := similar_confidence_gt pr.1.data pr.2.data hsim
    rcases hr12 with rfl | rfl <;> exact hgt
  constructor
  · intro r hr
    simp only [detectCopyMove_eq] at hr
    exact hreg r hr
  · simp only [detectCopyMove_eq]
    by_cases hlen : 0 < (cmRegionsOf img).length
    · right
      rw [if_pos hlen]
      have hne : (cmRegionsOf img).map Region.confidence ≠ [] := by
        intro hcon
        rw [← List.length_eq_zero, List.length_map] at hcon
        omega
      have hmean := lt_list_mean hne (fun x hx => by
        rcases List.mem_map.mp hx with ⟨r, hrr, rfl⟩
        exact hreg r hrr)
      rwa [List.length_map] at hmean
    · left
      rw [if_neg hlen]

/-- C9 witness: the theorem applied to the 160 × 33 fixture, whose
copy-move result contains the region at `(0, 0)` with confidence 1. -/
theorem C9_witness :
    ({ x := 0, y := 0, width := 32, height := 32, confidence := 1 } : Region)
      ∈ (detectCopyMove zeroBuf160x33).1 ∧
    250 / 255 <
      ({ x := 0, y := 0, width := 32, height := 32, confidence := 1 } :
        Region).confidence ∧
    ((detectCopyMove zeroBuf160x33).2 = 0 ∨
      250 / 255 < (detectCopyMove zeroBuf160x33).2) := by
  have h2 : ({ x := 0, y := 0, width := 32, height := 32, confidence := 1 } :
      Region) ∈ (detectCopyMove zeroBuf160x33).1 := by
    rw [detectCopyMove_eq]
    exact zeroBuf160x33_region_mem
  exact ⟨h2, (C9_copy_move_confidence_floor zeroBuf160x33).1 _ h2,
    (C9_copy_move_confidence_floor zeroBuf160x33).2⟩

/-- C3 (amended): the aggregate lies in `[0, 100]` for every ELA region
list with confidences in `[0, 1]`, copy-move confidence in `[0, 1]`, and
at most 10 warnings; beyond 10 warnings the metadata factor turns
negative and the bound fails (see the counterexample). -/
theorem C3_aggregate_range (elaRegions : List Region) (cm : ℚ) (m : Metadata)
    (hela : ∀ r ∈ elaRegions, 0 ≤ r.confidence ∧ r.confidence ≤ 1)
    (hcm0 : 0 ≤ cm) (hcm1 : cm ≤ 1) (hw : m.warnings ≤ 10) :
    0 ≤ calculateOverallConfidence elaRegions cm (some m) ∧
    calculateOverallConfidence elaRegions cm (some m) ≤ 100 := by
  have hmf := metadataFactor_bounds m hw
  have hmean : 0 ≤ (elaRegions.map Region.confidence).sum /
      (elaRegions.length : ℚ) ∧
      (elaRegions.map Region.confidence).sum / (elaRegions.length : ℚ) ≤ 1 := by
    have hb := list_mean_nonneg_le_one (elaRegions.map Region.confidence)
      (by
        intro x hx
        rcases List.mem_map.mp hx with ⟨r, hr, rfl⟩
        exact hela r hr)
    rwa [List.length_map] at hb
  rw [calcOverall_eq]
  split_ifs with hF
  · refine div_mul_100_bounds ?_ hF ?_
    · simp only [confidenceSum]
      split_ifs <;> linarith [hmean.1, hmean.2, hmf.1, hmf.2]
    · simp only [confidenceSum, confidenceFactors]
      split_ifs <;> push_cast <;>
        linarith [hmean.1, hmean.2, hmf.1, hmf.2]
  · exact ⟨le_refl 0, by norm_num⟩

/-- C3 witness: the theorem applied to empty signals and
`hasMetadata = false, warningCount = 3`. -/
theorem C3_witness :
    (∀ r ∈ ([] : List Region), 0 ≤ r.confidence ∧ r.confidence ≤ 1) ∧
    (0 : ℚ) ≤ 0 ∧ (0 : ℚ) ≤ 1 ∧ (Metadata.mk false 3).warnings ≤ 10 ∧
    (0 ≤ calculateOverallConfidence [] 0 (some ⟨false, 3⟩) ∧
     calculateOverallConfidence [] 0 (some ⟨false, 3⟩) ≤ 100) := by
  refine ⟨by simp, le_refl 0, by norm_num, by decide, ?_⟩
  exact C3_aggregate_range [] 0 ⟨false, 3⟩ (by simp) (le_refl 0) (by norm_num)
    (by decide)

/-- C4 (amended): on a 64 × 64 uniform single-color image with
`blockSize = 32`, `detectCopyMove` extracts exactly one block (at
`(0, 0)`; the strict loop bound `y < height - blockSize` drops the
blocks touching the boundary) and performs zero block-pair comparisons,
returning no regions and confidence 0. -/
theorem C4_uniform64_single_block (c : Nat) :
    (extractBlocks (uniformBuf64 c)).length = 1 ∧
    (orderedPairs (extractBlocks (uniformBuf64 c))).length = 0 ∧
    detectCopyMove (uniformBuf64 c) = ([], 0) := by
  have hb : extractBlocks (uniformBuf64 c) =
      [extractBlock (uniformBuf64 c) 0 0] := by
    unfold extractBlocks uniformBuf64
    norm_num [cmBlockSize]
    rw [show List.range 1 = [0] from rfl]
    simp
  have hp : cmRegionsOf (uniformBuf64 c) = [] := by
    unfold cmRegionsOf
    rw [hb]
    rfl
  refine ⟨by rw [hb]; rfl, by rw [hb]; rfl, ?_⟩
  rw [detectCopyMove_eq, hp]
  rfl

/-- C5 (amended): on a buffer with zero width or zero height neither
analysis fails — the code has no empty-image check; both functions
return ordinary empty results (no regions, empty heatmap rows, zero
confidence) because the loops never run. -/
theorem C5_zero_dim_normal (img : PixelBuffer) (compData : Nat → Nat)
    (h : img.width = 0 ∨ img.height = 0) :
    (performErrorLevelAnalysis img compData).1 = [] ∧
    (∀ row ∈ (performErrorLevelAnalysis img compData).2, row = []) ∧
    detectCopyMove img = ([], 0) := by
  have hblocks : extractBlocks img = [] := by
    unfold extractBlocks
    rcases h with h0 | h0 <;>
      norm_num [h0, cmBlockSize, List.flatMap_eq_nil_iff]
  have hcm : detectCopyMove img = ([], 0) := by
    have hp : cmRegionsOf img = [] := by
      unfold cmRegionsOf
      rw [hblocks]
      rfl
    rw [detectCopyMove_eq, hp]
    rfl
  refine ⟨?_, ?_, hcm⟩
  · simp only [performErrorLevelAnalysis_eq]
    unfold elaRegionsOf
    rw [List.flatMap_eq_nil_iff]
    intro gy hgy
    rw [List.flatMap_eq_nil_iff]
    intro gx hgx
    exfalso
    rcases h with h0 | h0
    · rw [List.mem_range] at hgx
      unfold elaCols at hgx
      rw [h0] at hgx
      norm_num [elaBlockSize] at hgx
    · rw [List.mem_range] at hgy
      unfold elaRows at hgy
      rw [h0] at hgy
      norm_num [elaBlockSize] at hgy
  · simp only [performErrorLevelAnalysis_eq]
    unfold elaHeatmapOf
    rcases h with h0 | h0
    · have hc : elaCols img = 0 := by
        unfold elaCols
        rw [h0]
        norm_num [elaBlockSize]
      rw [hc]
      simp only [List.range_zero, List.foldl_nil]
      rw [foldl_id]
      intro row hrow
      rw [List.eq_of_mem_replicate hrow]
      rfl
    · have hr : elaRows img = 0 := by
        unfold elaRows
        rw [h0]
        norm_num [elaBlockSize]
      rw [hr]
      simp

/-- C5 witness: the theorem applied to the zero-width buffer. -/
theorem C5_witness :
    (zeroWidthBuf.width = 0 ∨ zeroWidthBuf.height = 0) ∧
    (performErrorLevelAnalysis zeroWidthBuf (fun _ => 0)).1 = [] ∧
    (∀ row ∈ (performErrorLevelAnalysis zeroWidthBuf (fun _ => 0)).2,
      row = []) ∧
    detectCopyMove zeroWidthBuf = ([], 0) := by
  have h : zeroWidthBuf.width = 0 ∨ zeroWidthBuf.height = 0 := Or.inl rfl
  have hc := C5_zero_dim_normal zeroWidthBuf (fun _ => 0) h
  exact ⟨h, hc.1, hc.2.1, hc.2.2⟩

/-- C7: the heatmap has exactly `ceil(height/blockSize)` rows of
exactly `ceil(width/blockSize)` cells each, for any image with
`width, height ≥ 1` and `blockSize = 16`, including dimensions that are
not multiples of the block size. -/
theorem C7_heatmap_dimensions (img : PixelBuffer) (compData : Nat → Nat)
    (hw : 1 ≤ img.width) (hh : 1 ≤ img.height) :
    (performErrorLevelAnalysis img compData).2.length =
      (img.height + elaBlockSize - 1) / elaBlockSize ∧
    ∀ row ∈ (performErrorLevelAnalysis img compData).2,
      row.length = (img.width + elaBlockSize - 1) / elaBlockSize := by
  simp only [performErrorLevelAnalysis_eq]
  show (elaHeatmapOf img compData).length = elaRows img ∧
    ∀ row ∈ elaHeatmapOf img compData, row.length = elaCols img
  unfold elaHeatmapOf
  apply foldl_preserve
    (fun hm : List (List ℚ) =>
      hm.length = elaRows img ∧ ∀ row ∈ hm, row.length = elaCols img)
  · refine ⟨List.length_replicate _ _, ?_⟩
    intro row hrow
    rw [List.eq_of_mem_replicate hrow]
    exact List.length_replicate _ _
  · intro hm gy hgy hP
    apply foldl_preserve
      (fun hm2 : List (List ℚ) => hm2.length = elaRows img ∧
        ∀ row ∈ hm2, row.length = elaCols img)
    · exact hP
    · intro hm2 gx hgx hP2
      refine ⟨by rw [List.length_set]; exact hP2.1, ?_⟩
      intro row hrow
      rcases List.mem_or_eq_of_mem_set hrow with hmem | rfl
      · exact hP2.2 row hmem
      · rw [List.length_set]
        have hgy2 : gy < hm2.length := by
          rw [hP2.1]
          exact List.mem_range.mp hgy
        rw [List.getD_eq_getElem _ _ hgy2]
        exact hP2.2 _ (List.getElem_mem hgy2)

/-- C7 witness: the theorem applied to the 17 × 20 fixture, whose
heatmap is 2 rows of 2 cells. -/
theorem C7_witness :
    1 ≤ constBuf17x20.width ∧ 1 ≤ constBuf17x20.height ∧
    ((performErrorLevelAnalysis constBuf17x20 (fun _ => 7)).2.length =
      (constBuf17x20.height + elaBlockSize - 1) / elaBlockSize ∧
     ∀ row ∈ (performErrorLevelAnalysis constBuf17x20 (fun _ => 7)).2,
       row.length = (constBuf17x20.width + elaBlockSize - 1) /
         elaBlockSize) := by
  exact ⟨by decide, by decide,
    C7_heatmap_dimensions constBuf17x20 (fun _ => 7) (by decide) (by decide)⟩

/-- C8: when the recompression round trip returns the original samples
at every index, ELA emits no regions and the heatmap is all zeros. -/
theorem C8_identity_oracle (img : PixelBuffer) (compData : Nat → Nat)
    (h : ∀ i, compData i = img.data i) :
    (performErrorLevelAnalysis img compData).1 = [] ∧
    ∀ row ∈ (performErrorLevelAnalysis img compData).2, ∀ q ∈ row, q = 0 := by
  have hnd : ∀ x y, elaCellNormalizedDiff img compData x y = 0 := by
    intro x y
    rw [elaCellNormalizedDiff_def]
    have hsum : ((elaCellOffsets img.width img.height x y).map fun p =>
        pixelDiff img.data compData
          (((y + p.1) * img.width + (x + p.2)) * 4)).sum = 0 :=
      List.sum_eq_zero (by
        intro v hv
        rcases List.mem_map.mp hv with ⟨p, hp, rfl⟩
        simp [pixelDiff, natAbsDiff, h])
    rw [hsum]
    norm_num [min_def]
  constructor
  · simp only [performErrorLevelAnalysis_eq]
    unfold elaRegionsOf
    rw [List.flatMap_eq_nil_iff]
    intro gy hgy
    rw [List.flatMap_eq_nil_iff]
    intro gx hgx
    simp only [elaCellRegionList]
    rw [hnd]
    norm_num
  · simp only [performErrorLevelAnalysis_eq]
    unfold elaHeatmapOf
    simp only [hnd]
    apply foldl_preserve
      (fun hm : List (List ℚ) => ∀ row ∈ hm, ∀ q ∈ row, q = 0)
    · intro row hrow
      rw [List.eq_of_mem_replicate hrow]
      intro q hq
      exact List.eq_of_mem_replicate hq
    · intro hm gy hgy hP
      apply foldl_preserve
        (fun hm2 : List (List ℚ) => ∀ row ∈ hm2, ∀ q ∈ row, q = 0)
      · exact hP
      · intro hm2 gx hgx hP2
        intro row hrow
        rcases List.mem_or_eq_of_mem_set hrow with hmem | rfl
        · exact hP2 row hmem
        · intro q hq
          rcases List.mem_or_eq_of_mem_set hq with hq2 | rfl
          · by_cases hlt : gy < hm2.length
            · rw [List.getD_eq_getElem _ _ hlt] at hq2
              exact hP2 _ (List.getElem_mem hlt) q hq2
            · rw [List.getD_eq_default _ _ (by omega)] at hq2
              simp at hq2
          · rfl

/-- C8 witness: the theorem applied to the 17 × 20 constant buffer with
the identity round trip. -/
theorem C8_witness :
    (∀ i, (fun _ => 7 : Nat → Nat) i = constBuf17x20.data i) ∧
    (performErrorLevelAnalysis constBuf17x20 (fun _ => 7)).1 = [] ∧
    ∀ row ∈ (performErrorLevelAnalysis constBuf17x20 (fun _ => 7)).2,
      ∀ q ∈ row, q = 0 := by
  have h : ∀ i, (fun _ => 7 : Nat → Nat) i = constBuf17x20.data i :=
    fun _ => rfl
  have hc := C8_identity_oracle constBuf17x20 (fun _ => 7) h
  exact ⟨h, hc.1, hc.2⟩

/-- C10: whenever metadata is supplied, the aggregator counts at least
one factor, so the zero-fallback branch is unreachable and the result
is always `(sum / factorCount) * 100`. -/
theorem C10_metadata_forces_factor (ela : List Region) (cm : ℚ)
    (m : Metadata) :
    0 < confidenceFactors ela cm (some m) ∧
    calculateOverallConfidence ela cm (some m) =
      confidenceSum ela cm (some m) /
        (confidenceFactors ela cm (some m) : ℚ) * 100 := by
  have hF : 0 < confidenceFactors ela cm (some m) := by
    simp only [confidenceFactors]
    split_ifs <;> omega
  exact ⟨hF, by rw [calcOverall_eq, if_pos hF]⟩

end ImageTamper
